import Mathlib

/-
Shallow embedding of the user-space task library in src/proj.c.

Machine pointers are modelled by task ids (Nat).  The circular,
sentinel-headed scheduler list tSchedListHead is modelled by the Lean list
of its non-sentinel members in arrival order; the position of a node is its
index in that list.  Task states are the taskState_t enum.  A mutex carries
its value flag, its lockedBy field, and its wait list rendered as the list
of task ids reachable by following the next links from the sentinel of
mutex->taskList (the enqueue in lockMutex appends at the tail; the
broken dequeue in lockMutex never unlinks a node from that next chain, so
the chain is modelled as unchanged by the dequeue).
-/

/-- Lifecycle states, the taskState_t enum of proj.c.  ZOMBIE is the
Terminal state of the specification. -/
inductive TState where
  | ALLOC
  | READY
  | RUNNING
  | BLOCKED
  | ZOMBIE
deriving DecidableEq

/-- Selection condition of the do-while loop in getNextTask: the scan stops
on a task whose state is READY or RUNNING. -/
def runnable : TState → Bool
  | .READY => true
  | .RUNNING => true
  | _ => false

/-- Pointwise update of a task-state store (writing the tState field of the
node with the given id). -/
def setSt (f : Nat → TState) (a : Nat) (v : TState) : Nat → TState :=
  fun x => if x = a then v else f x

/-- The myMutex_t record: value flag, lockedBy pointer, and the next chain
of the wait list. -/
structure MyMutex where
  value : Bool
  lockedBy : Option Nat
  waitChain : List Nat
deriving DecidableEq

/-- initMyMutex: clears the value flag and empties the wait list.  The C
code never writes lockedBy here, so that field keeps its prior content. -/
def initMyMutex (m : MyMutex) : MyMutex :=
  { m with value := false, waitChain := [] }

/-- tryLockMutex: under masked preemption, claim the mutex when free and
return it, otherwise return NULL; the Bool renders the non-NULL test of the
returned pointer.  The C code does not write lockedBy on this path and
never touches the wait list or any task state. -/
def tryLockMutex (m : MyMutex) : MyMutex × Bool :=
  if m.value then (m, false) else ({ m with value := true }, true)

/-- Body of the notify-all loop of unlockMutex: walk the wait list along
the next links and set the recorded task of each node to READY. -/
def wakeAll : List Nat → (Nat → TState) → (Nat → TState)
  | [], st => st
  | u :: us, st => wakeAll us (setSt st u .READY)

/-- unlockMutex called by task t: effective only when the value flag is set
and lockedBy equals the calling task; then it clears the value flag and
wakes every recorded waiter.  lockedBy itself is never cleared. -/
def unlockMutex (t : Nat) (m : MyMutex) (st : Nat → TState) :
    MyMutex × (Nat → TState) :=
  if m.value = true ∧ m.lockedBy = some t then
    ({ m with value := false }, wakeAll m.waitChain st)
  else (m, st)

/-- listGetNext on the index model of the scheduler list: the successor of
the last index is the sentinel, which the inner while loop skips, landing
back on index 0. -/
def listGetNextIdx (len j : Nat) : Nat := if j + 1 < len then j + 1 else 0

/-- The do-while loop of getNextTask: inspect the node at index j; if its
state is READY or RUNNING return it, otherwise move to the successor index.
The C loop can spin forever when no task qualifies; the scan is bounded by
the list length, and returns none exactly on that divergence. -/
def scanFrom (st : Nat → TState) (l : List Nat) : Nat → Nat → Option Nat
  | 0, _ => none
  | fuel + 1, j =>
    match l.get? j with
    | none => none
    | some t =>
      if runnable (st t) then some t
      else scanFrom st l fuel (listGetNextIdx l.length j)

/-- getNextTask: when currTask is NULL the scan starts at the sentinel,
whose successor is index 0; otherwise it starts just past the node of the
current task. -/
def getNextTask (st : Nat → TState) (l : List Nat) (curr : Option Nat) :
    Option Nat :=
  match curr with
  | none => scanFrom st l l.length 0
  | some c =>
      scanFrom st l l.length
        (listGetNextIdx l.length (l.findIdx (fun x => x == c)))

/-- Specification-side selector, following the words of the spec: the first
task of the given traversal order whose state is Ready or Running. -/
def firstRunnable (st : Nat → TState) : List Nat → Option Nat
  | [] => none
  | t :: ts => if runnable (st t) then some t else firstRunnable st ts

/-- Control locations of the task bodies that the claims exercise.  A task
either still runs its entry routine (work n: n slices left before the
routine returns), sits inside taskJoin or lockMutex, is about to call
unlockMutex once, loops forever yielding (idle), or was retired by
cleanUpFunc after its entry routine returned. -/
inductive PC where
  | work (n : Nat)
  | joinLoop (tgt : Nat)
  | joinDone
  | lockEntry
  | lockWait
  | lockDone
  | unlockOnce
  | idle
  | retired
deriving DecidableEq

/-- Pointwise update of the control-location store. -/
def setPC (f : Nat → PC) (a : Nat) (v : PC) : Nat → PC :=
  fun x => if x = a then v else f x

/-- Whole-system configuration: the tState fields, the control locations,
the scheduler list (non-sentinel members in arrival order), the current
task pointer, and the one mutex the scenarios use. -/
structure Sys where
  tStates : Nat → TState
  pcs : Nat → PC
  list : List Nat
  curr : Option Nat
  mutex : MyMutex

/-- switchTasks: remember the old current task, select the next one with
getNextTask, then mark the old task READY and the new one RUNNING, in that
order, and return the old task.  The marking of the old task is
unconditional in the C code.  none renders the two situations in which the
C code would not return: a NULL current task, or a getNextTask that spins
forever. -/
def switchTasks (s : Sys) : Option (Sys × Nat) :=
  match s.curr with
  | none => none
  | some c =>
    match getNextTask s.tStates s.list (some c) with
    | none => none
    | some nxt =>
      some ({ s with
                curr := some nxt
                tStates := setSt (setSt s.tStates c .READY) nxt .RUNNING }, c)

/-- schedule(): switchTasks followed by swapcontext.  The context swap is
fully rendered by the curr field; when switchTasks would not return, the
system stays where it is (the C program hangs there). -/
def scheduleSys (s : Sys) : Sys :=
  match switchTasks s with
  | some p => p.1
  | none => s

/-- A suspension point of the current task c: record its continuation and
call schedule(). -/
def yieldWith (s : Sys) (c : Nat) (pcNew : PC) : Sys :=
  scheduleSys { s with pcs := setPC s.pcs c pcNew }

/-- One atomic turn of the current task, from its control location to its
next suspension point or return, following src/proj.c:
work (n+1): one slice of the entry routine, then the preemption path of
sigHand, which saves the context and runs switchTasks.
work 0: the entry routine returns and control falls into cleanUpFunc, which
unlinks the task, marks it ZOMBIE, clears currTask, asks getNextTask for
the next runnable task starting at the sentinel, and swaps to it without
marking it RUNNING.
joinLoop: the while loop of taskJoin: exit when the target is ZOMBIE,
otherwise call schedule().
lockEntry: lockMutex: when the value flag is set, enqueue the caller at the
tail of the wait list, mark it BLOCKED and call schedule(); when free,
claim the mutex (value flag and lockedBy) and return at once.
lockWait: resumption inside the wait loop of lockMutex: re-check the value
flag; when still set, mark BLOCKED and schedule() again; when clear, run
the (ineffective) dequeue, claim the mutex and return.
unlockOnce: call unlockMutex and go idle.
joinDone, lockDone, idle: loop forever, yielding each turn.
retired: never scheduled again; a retired current task would be a stuck
configuration. -/
def stepTask (s : Sys) : Sys :=
  match s.curr with
  | none => s
  | some c =>
    match s.pcs c with
    | .work (n + 1) => yieldWith s c (.work n)
    | .work 0 =>
      match getNextTask (setSt s.tStates c .ZOMBIE) (s.list.erase c) none with
      | none => s
      | some nxt =>
        { s with list := s.list.erase c
                 tStates := setSt s.tStates c .ZOMBIE
                 pcs := setPC s.pcs c .retired
                 curr := some nxt }
    | .joinLoop tgt =>
      if s.tStates tgt = .ZOMBIE then { s with pcs := setPC s.pcs c .joinDone }
      else yieldWith s c (.joinLoop tgt)
    | .joinDone => yieldWith s c .joinDone
    | .idle => yieldWith s c .idle
    | .lockDone => yieldWith s c .lockDone
    | .retired => s
    | .lockEntry =>
      if s.mutex.value then
        yieldWith
          { s with mutex := { s.mutex with waitChain := s.mutex.waitChain ++ [c] }
                   tStates := setSt s.tStates c .BLOCKED } c .lockWait
      else
        { s with mutex := { s.mutex with value := true, lockedBy := some c }
                 pcs := setPC s.pcs c .lockDone }
    | .lockWait =>
      if s.mutex.value then
        yieldWith { s with tStates := setSt s.tStates c .BLOCKED } c .lockWait
      else
        { s with mutex := { s.mutex with value := true, lockedBy := some c }
                 pcs := setPC s.pcs c .lockDone }
    | .unlockOnce =>
      { s with mutex := (unlockMutex c s.mutex s.tStates).1
               tStates := (unlockMutex c s.mutex s.tStates).2
               pcs := setPC s.pcs c .idle }

/-- Iterated system steps. -/
def runSys : Nat → Sys → Sys
  | 0, s => s
  | n + 1, s => stepTask (runSys n s)

/-- The initTask preprocessor definition: a no-op unless the handle is
non-NULL and in ALLOC state; otherwise prepare the entry context (rendered
by the pc0 continuation; the stack allocation itself is outside the
embedding), mark the task READY, append it to the scheduler list (listAdd
inserts before the sentinel, hence at the tail), and call schedule().  The
Bool reports whether the scheduling point was reached. -/
def initTask (h : Option Nat) (pc0 : PC) (s : Sys) : Sys × Bool :=
  match h with
  | none => (s, false)
  | some t =>
    if s.tStates t = .ALLOC then
      (scheduleSys { s with tStates := setSt s.tStates t .READY
                            pcs := setPC s.pcs t pc0
                            list := s.list ++ [t] }, true)
    else (s, false)

/-- The while loop of taskJoin on a non-NULL handle, with fuel bounding the
number of polls; the second component counts the schedule() calls made. -/
def taskJoinLoop (t : Nat) : Nat → Sys → Sys × Nat
  | 0, s => (s, 0)
  | fuel + 1, s =>
    if s.tStates t = .ZOMBIE then (s, 0)
    else
      ((taskJoinLoop t fuel (scheduleSys s)).1,
       (taskJoinLoop t fuel (scheduleSys s)).2 + 1)

/-- taskJoin: the NULL test guards the whole polling loop. -/
def taskJoin (h : Option Nat) (fuel : Nat) (s : Sys) : Sys × Nat :=
  match h with
  | none => (s, 0)
  | some t => taskJoinLoop t fuel s

/-- Operations of the mutex API, for reasoning over call sequences. -/
inductive MOp where
  | mInit
  | mLock (t : Nat)
  | mTryLock (t : Nat)
  | mUnlock (t : Nat)

/-- Effect of one API call on the mutex and the task states.  mLock renders
the immediate-claim path when the mutex is free, and the enqueue-and-block
step of the wait loop when it is held (the blocked caller acquires nothing
in this step; its later acquisition is part of stepTask). -/
def mutexOp : MOp → MyMutex × (Nat → TState) → MyMutex × (Nat → TState)
  | .mInit, (m, st) => (initMyMutex m, st)
  | .mLock t, (m, st) =>
    if m.value then
      ({ m with waitChain := m.waitChain ++ [t] }, setSt st t .BLOCKED)
    else ({ m with value := true, lockedBy := some t }, st)
  | .mTryLock _, (m, st) => ((tryLockMutex m).1, st)
  | .mUnlock t, (m, st) => unlockMutex t m st

/-- Folding a call sequence over the mutex state. -/
def runMutexOps : List MOp → MyMutex × (Nat → TState) → MyMutex × (Nat → TState)
  | [], x => x
  | op :: ops, x => runMutexOps ops (mutexOp op x)

/-- Claim-side ghost for C2: the task that most recently acquired the mutex
(by lock, or by a successful tryLock) without an intervening release by the
owner. -/
def lastAcquirer : List MOp → MyMutex × (Nat → TState) → Option Nat → Option Nat
  | [], _, a => a
  | op :: ops, (m, st), a =>
    lastAcquirer ops (mutexOp op (m, st))
      (match op with
       | .mLock t => if m.value then a else some t
       | .mTryLock t => if m.value then a else some t
       | .mUnlock t => if m.value = true ∧ m.lockedBy = some t then none else a
       | .mInit => a)

/-- Ghost for the amended C2: the task that most recently acquired the
mutex through the blocking lock path; tryLock acquisitions do not update it
and unlock does not clear it, mirroring exactly the writes to lockedBy. -/
def lockPathOwner : List MOp → MyMutex × (Nat → TState) → Option Nat → Option Nat
  | [], _, a => a
  | op :: ops, (m, st), a =>
    lockPathOwner ops (mutexOp op (m, st))
      (match op with
       | .mLock t => if m.value then a else some t
       | _ => a)

/-- Invariant tying ZOMBIE to a returned entry routine: a task state is
ZOMBIE exactly when cleanUpFunc retired it, the current task is never a
zombie, and every recorded mutex waiter sits inside the lockMutex code. -/
def SysInv (s : Sys) : Prop :=
  (∀ u, s.tStates u = .ZOMBIE ↔ s.pcs u = .retired)
  ∧ (∀ c, s.curr = some c → s.tStates c ≠ .ZOMBIE)
  ∧ (∀ u ∈ s.mutex.waitChain, s.pcs u = .lockWait ∨ s.pcs u = .lockDone)

/-- Configuration of a self-deadlocked locker: the mutex is held with
lockedBy pointing at task t, and t is inside lockMutex on that mutex. -/
def LockStuckInv (t : Nat) (s : Sys) : Prop :=
  s.mutex.value = true ∧ s.mutex.lockedBy = some t
  ∧ (s.pcs t = .lockEntry ∨ s.pcs t = .lockWait)

/-- Claim C1 as stated: whenever the current task set its own state to
BLOCKED before invoking the scheduler, switchTasks leaves that state
BLOCKED. -/
def ClaimC1 : Prop :=
  ∀ (s : Sys) (c : Nat) (s2 : Sys) (old : Nat),
    s.curr = some c → s.tStates c = .BLOCKED →
    switchTasks s = some (s2, old) → s2.tStates c = .BLOCKED

/-- Claim C2 as stated: along every call sequence from an initialized
mutex, whenever the value flag is set, lockedBy is non-empty and names the
most recent acquirer. -/
def ClaimC2 : Prop :=
  ∀ (ops : List MOp) (m0 : MyMutex) (st0 : Nat → TState),
    (runMutexOps ops (initMyMutex m0, st0)).1.value = true →
    (runMutexOps ops (initMyMutex m0, st0)).1.lockedBy ≠ none
    ∧ (runMutexOps ops (initMyMutex m0, st0)).1.lockedBy
        = lastAcquirer ops (initMyMutex m0, st0) none

/-- Claim C3 as stated: a task that calls lockMutex on a mutex it already
holds never again reaches the RUNNING state in any later step. -/
def ClaimC3 : Prop :=
  ∀ (s : Sys) (t : Nat),
    s.curr = some t → s.mutex.value = true → s.mutex.lockedBy = some t →
    s.pcs t = .lockEntry →
    ∀ n, 1 ≤ n → (runSys n s).tStates t ≠ .RUNNING

/-- A current task that set itself BLOCKED before yielding, next to one
READY task. -/
def sysBlocked : Sys :=
  { tStates := fun u => if u = 0 then .BLOCKED else .READY
    pcs := fun _ => .idle
    list := [0, 1]
    curr := some 0
    mutex := { value := false, lockedBy := none, waitChain := [] } }

/-- Task 0 about to call lockMutex on the mutex it already holds, next to
one idle task. -/
def sysSelf : Sys :=
  { tStates := fun u => if u = 0 then .RUNNING else .READY
    pcs := fun u => if u = 0 then .lockEntry else .idle
    list := [0, 1]
    curr := some 0
    mutex := { value := true, lockedBy := some 0, waitChain := [] } }

/-- Task 0 polling taskJoin on task 1, whose entry routine still has two
slices to run. -/
def sysJoin : Sys :=
  { tStates := fun u => if u = 0 then .RUNNING else .READY
    pcs := fun u => if u = 0 then .joinLoop 1 else if u = 1 then .work 2 else .idle
    list := [0, 1]
    curr := some 0
    mutex := { value := false, lockedBy := none, waitChain := [] } }

/-- A task-state store with every task BLOCKED, used as a neutral store in
concrete instances. -/
def stAllBlocked : Nat → TState := fun _ => .BLOCKED

/-- A store in which only task 5 is READY, for concrete selection runs. -/
def st5ex : Nat → TState := fun u => if u = 5 then .READY else .BLOCKED

/-- A configuration whose every task handle is still in ALLOC state. -/
def sysAlloc : Sys := { sysBlocked with tStates := fun _ => .ALLOC }

/-
Theorems.  First the helper lemmas about stores, the wake loop and the
round-robin scan, then one theorem per claim with its witness.
-/

theorem setSt_same (f : Nat → TState) (a : Nat) (v : TState) :
    setSt f a v a = v := by
  simp [setSt]

theorem setSt_other (f : Nat → TState) (a : Nat) (v : TState) (x : Nat)
    (h : x ≠ a) : setSt f a v x = f x := by
  simp [setSt, h]

theorem setPC_same (f : Nat → PC) (a : Nat) (v : PC) :
    setPC f a v a = v := by
  simp [setPC]

theorem setPC_other (f : Nat → PC) (a : Nat) (v : PC) (x : Nat)
    (h : x ≠ a) : setPC f a v x = f x := by
  simp [setPC, h]

theorem wakeAll_notMem (us : List Nat) :
    ∀ (st : Nat → TState) (u : Nat), u ∉ us → wakeAll us st u = st u := by
  induction us with
  | nil => intro st u _; rfl
  | cons v vs ih =>
    intro st u hu
    have hv : u ≠ v := fun h => hu (h ▸ List.mem_cons_self v vs)
    have hvs : u ∉ vs := fun h => hu (List.mem_cons_of_mem v h)
    simp only [wakeAll]
    rw [ih _ u hvs, setSt_other _ _ _ _ hv]

theorem wakeAll_mem (us : List Nat) :
    ∀ (st : Nat → TState) (u : Nat), u ∈ us → wakeAll us st u = .READY := by
  induction us with
  | nil => intro st u hu; cases hu
  | cons v vs ih =>
    intro st u hu
    by_cases hvs : u ∈ vs
    · simpa only [wakeAll] using ih _ u hvs
    · have hv : u = v := by
        rcases List.mem_cons.mp hu with h | h
        · exact h
        · exact absurd h hvs
      subst hv
      simp only [wakeAll]
      rw [wakeAll_notMem _ _ _ hvs, setSt_same]

/-- C4: for every mutex held by the caller, unlockMutex clears the held
flag and sets the state of every task in the wait collection to READY
(broadcast wake), for any contents of the wait list. -/
theorem unlockMutex_broadcast (t : Nat) (m : MyMutex) (st : Nat → TState)
    (hv : m.value = true) (ho : m.lockedBy = some t) :
    (unlockMutex t m st).1.value = false
    ∧ ∀ u ∈ m.waitChain, (unlockMutex t m st).2 u = .READY := by
  unfold unlockMutex
  rw [if_pos ⟨hv, ho⟩]
  exact ⟨rfl, fun u hu => wakeAll_mem _ _ _ hu⟩

theorem unlockMutex_broadcast_witness :
    (unlockMutex 0 ⟨true, some 0, [1, 2]⟩ stAllBlocked).1.value = false
    ∧ (unlockMutex 0 ⟨true, some 0, [1, 2]⟩ stAllBlocked).2 1 = .READY
    ∧ (unlockMutex 0 ⟨true, some 0, [1, 2]⟩ stAllBlocked).2 2 = .READY :=
  ⟨(unlockMutex_broadcast 0 ⟨true, some 0, [1, 2]⟩ stAllBlocked rfl rfl).1,
   (unlockMutex_broadcast 0 ⟨true, some 0, [1, 2]⟩ stAllBlocked rfl rfl).2 1 (by decide),
   (unlockMutex_broadcast 0 ⟨true, some 0, [1, 2]⟩ stAllBlocked rfl rfl).2 2 (by decide)⟩

/-- C7: for every caller that is not the recorded owner, unlockMutex is a
silent no-op: the mutex (value flag, lockedBy, wait list) and every task
state are unchanged. -/
theorem unlockMutex_foreign_noop (t : Nat) (m : MyMutex) (st : Nat → TState)
    (h : m.lockedBy ≠ some t) :
    unlockMutex t m st = (m, st) := by
  unfold unlockMutex
  rw [if_neg (fun hc => h hc.2)]

theorem unlockMutex_foreign_noop_witness :
    unlockMutex 1 ⟨true, some 0, [2]⟩ stAllBlocked = (⟨true, some 0, [2]⟩, stAllBlocked) :=
  unlockMutex_foreign_noop 1 ⟨true, some 0, [2]⟩ stAllBlocked (by decide)

/-- C8: tryLockMutex never enqueues and never touches lockedBy or any task
state; it reports success exactly when the mutex was free, claiming it in
that case, and leaves a held mutex exactly as it was.  The right-hand side
spells this out: the only field that can change is the value flag, which is
set on success and already set on failure. -/
theorem tryLockMutex_spec (m : MyMutex) :
    tryLockMutex m = ({ m with value := true }, !m.value) := by
  cases m with
  | mk v lb wc => cases v <;> simp [tryLockMutex]

/-- C10: taskJoin on a NULL handle returns at once: the system state is
untouched and the scheduler is invoked zero times, for every fuel bound. -/
theorem taskJoin_null (fuel : Nat) (s : Sys) : taskJoin none fuel s = (s, 0) :=
  rfl

theorem firstRunnable_append_some {st : Nat → TState} {xs : List Nat}
    {t : Nat} (ys : List Nat) (h : firstRunnable st xs = some t) :
    firstRunnable st (xs ++ ys) = some t := by
  induction xs with
  | nil => simp [firstRunnable] at h
  | cons a as ih =>
    by_cases ha : runnable (st a) = true
    · simp only [firstRunnable, ha, if_true] at h ⊢
      exact h
    · simp only [firstRunnable, ha, if_false, Bool.false_eq_true] at h ⊢
      exact ih h

theorem firstRunnable_append_notin {st : Nat → TState} {xs : List Nat}
    (ys : List Nat) (h : ∀ x ∈ xs, runnable (st x) = false) :
    firstRunnable st (xs ++ ys) = firstRunnable st ys := by
  induction xs with
  | nil => rfl
  | cons a as ih =>
    have ha : runnable (st a) = false := h a (List.mem_cons_self a as)
    simp only [List.cons_append, firstRunnable, ha, Bool.false_eq_true, if_false]
    exact ih (fun x hx => h x (List.mem_cons_of_mem a hx))

theorem firstRunnable_split {st : Nat → TState} : ∀ {xs : List Nat} {t : Nat},
    firstRunnable st xs = some t →
    ∃ pre rest, xs = pre ++ t :: rest ∧ (∀ x ∈ pre, runnable (st x) = false)
      ∧ runnable (st t) = true := by
  intro xs
  induction xs with
  | nil => intro t h; simp [firstRunnable] at h
  | cons a as ih =>
    intro t h
    by_cases ha : runnable (st a) = true
    · simp only [firstRunnable, ha, if_true, Option.some.injEq] at h
      subst h
      exact ⟨[], as, rfl, by simp, ha⟩
    · simp only [firstRunnable, ha, Bool.false_eq_true, if_false] at h
      obtain ⟨pre, rest, hxs, hpre, ht⟩ := ih h
      refine ⟨a :: pre, rest, by rw [hxs]; rfl, ?_, ht⟩
      intro x hx
      rcases List.mem_cons.mp hx with h1 | h1
      · subst h1; exact Bool.not_eq_true _ ▸ (by simpa using ha)
      · exact hpre x h1

theorem firstRunnable_of_all_false {st : Nat → TState} : ∀ {xs : List Nat},
    (∀ x ∈ xs, runnable (st x) = false) → firstRunnable st xs = none := by
  intro xs
  induction xs with
  | nil => intro _; rfl
  | cons a as ih =>
    intro h
    have ha : runnable (st a) = false := h a (List.mem_cons_self a as)
    simp only [firstRunnable, ha, Bool.false_eq_true, if_false]
    exact ih (fun x hx => h x (List.mem_cons_of_mem a hx))

theorem firstRunnable_none {st : Nat → TState} : ∀ {xs : List Nat},
    firstRunnable st xs = none → ∀ x ∈ xs, runnable (st x) = false := by
  intro xs
  induction xs with
  | nil => intro _ x hx; cases hx
  | cons a as ih =>
    intro h x hx
    by_cases ha : runnable (st a) = true
    · simp [firstRunnable, ha] at h
    · simp only [firstRunnable, ha, Bool.false_eq_true, if_false] at h
      rcases List.mem_cons.mp hx with h1 | h1
      · subst h1; simpa using ha
      · exact ih h x h1

theorem firstRunnable_isSome {st : Nat → TState} {xs : List Nat} {t : Nat}
    (ht : t ∈ xs) (hr : runnable (st t) = true) :
    ∃ u, firstRunnable st xs = some u := by
  cases h : firstRunnable st xs with
  | some u => exact ⟨u, rfl⟩
  | none => exact absurd hr (by simp [firstRunnable_none h t ht])

theorem get_of_drop_cons {l : List Nat} {j t : Nat} {rest : List Nat}
    (h : l.drop j = t :: rest) : l.get? j = some t := by
  have h0 : (l.drop j)[0]? = l[j + 0]? := List.getElem?_drop l j 0
  rw [h] at h0
  simpa [List.get?_eq_getElem?] using h0.symm

theorem drop_succ_of_drop_cons {l : List Nat} {j a : Nat} {X : List Nat}
    (h : l.drop j = a :: X) : l.drop (j + 1) = X := by
  rw [← List.tail_drop, h]
  rfl

theorem lt_length_of_drop_cons {l : List Nat} {j a : Nat} {X : List Nat}
    (h : l.drop j = a :: X) : j < l.length := by
  by_contra hle
  rw [List.drop_eq_nil_iff.mpr (by omega)] at h
  cases h

theorem scanFrom_hits {st : Nat → TState} {l : List Nat} :
    ∀ (pre : List Nat) (fuel j t : Nat) (rest : List Nat),
      l.drop j = pre ++ t :: rest → (∀ x ∈ pre, runnable (st x) = false) →
      runnable (st t) = true → pre.length < fuel →
      scanFrom st l fuel j = some t := by
  intro pre
  induction pre with
  | nil =>
    intro fuel j t rest hdrop _ ht hlt
    cases fuel with
    | zero => omega
    | succ f =>
      rw [List.nil_append] at hdrop
      simp only [scanFrom, get_of_drop_cons hdrop, ht, if_true]
  | cons p pre ih =>
    intro fuel j t rest hdrop hpre ht hlt
    cases fuel with
    | zero => simp at hlt
    | succ f =>
      rw [List.cons_append] at hdrop
      have hp : runnable (st p) = false := hpre p (List.mem_cons_self p _)
      have hdrop1 : l.drop (j + 1) = pre ++ t :: rest :=
        drop_succ_of_drop_cons hdrop
      have hne : j + 1 < l.length := by
        by_contra hle
        have h0 : l.drop (j + 1) = [] := List.drop_eq_nil_iff.mpr (by omega)
        rw [h0] at hdrop1
        exact absurd hdrop1.symm (by simp)
      simp only [scanFrom, get_of_drop_cons hdrop, hp, Bool.false_eq_true, if_false]
      rw [show listGetNextIdx l.length j = j + 1 from if_pos hne]
      exact ih f (j + 1) t rest hdrop1
        (fun x hx => hpre x (List.mem_cons_of_mem p hx)) ht (by simpa using hlt)

theorem scanFrom_wraps {st : Nat → TState} {l : List Nat} :
    ∀ (d fuel j : Nat), j < l.length → l.length - j = d →
      (∀ x ∈ l.drop j, runnable (st x) = false) →
      scanFrom st l (fuel + d) j = scanFrom st l fuel 0 := by
  intro d
  induction d with
  | zero => intro fuel j hj hd _; omega
  | succ k ih =>
    intro fuel j hj hd hall
    cases hdr : l.drop j with
    | nil => rw [List.drop_eq_nil_iff] at hdr; omega
    | cons a X =>
      have ha : runnable (st a) = false :=
        hall a (hdr ▸ List.mem_cons_self a X)
      rw [Nat.add_succ]
      simp only [scanFrom, get_of_drop_cons hdr, ha, Bool.false_eq_true, if_false]
      by_cases hj1 : j + 1 < l.length
      · rw [show listGetNextIdx l.length j = j + 1 from if_pos hj1]
        refine ih fuel (j + 1) hj1 (by omega) ?_
        intro x hx
        have hx2 : x ∈ l.drop j := by
          rw [hdr]
          exact List.mem_cons_of_mem a (by rwa [drop_succ_of_drop_cons hdr] at hx)
        exact hall x hx2
      · have hk : k = 0 := by omega
        rw [show listGetNextIdx l.length j = 0 from if_neg hj1, hk, Nat.add_zero]

theorem scanFrom_runnable_aux {st : Nat → TState} {l : List Nat} :
    ∀ (fuel j t : Nat), scanFrom st l fuel j = some t → runnable (st t) = true := by
  intro fuel
  induction fuel with
  | zero => intro j t h; cases h
  | succ f ih =>
    intro j t h
    cases hg : l.get? j with
    | none => simp only [scanFrom, hg] at h; cases h
    | some a =>
      simp only [scanFrom, hg] at h
      by_cases ha : runnable (st a) = true
      · rw [if_pos ha] at h; cases h; exact ha
      · rw [if_neg ha] at h; exact ih _ t h

theorem getNextTask_runnable {st : Nat → TState} {l : List Nat}
    {curr : Option Nat} {t : Nat} (h : getNextTask st l curr = some t) :
    runnable (st t) = true := by
  cases curr with
  | none => exact scanFrom_runnable_aux _ _ _ h
  | some c => exact scanFrom_runnable_aux _ _ _ h

theorem scanFrom_eq_firstRunnable {st : Nat → TState} {l : List Nat}
    (j : Nat) (hj : j < l.length) (tr : Nat) (htr : tr ∈ l)
    (hrr : runnable (st tr) = true) :
    scanFrom st l l.length j = firstRunnable st (l.drop j ++ l.take j) := by
  cases hfr : firstRunnable st (l.drop j) with
  | some t =>
    obtain ⟨pre, rest, hsplit, hpre, ht⟩ := firstRunnable_split hfr
    have hlenpre : pre.length < l.length := by
      have hlen := congrArg List.length hsplit
      rw [List.length_drop] at hlen
      simp only [List.length_append, List.length_cons] at hlen
      omega
    have hL : scanFrom st l l.length j = some t :=
      scanFrom_hits pre l.length j t rest hsplit hpre ht hlenpre
    have hR : firstRunnable st (l.drop j ++ l.take j) = some t := by
      rw [hsplit, List.append_assoc, List.cons_append,
        firstRunnable_append_notin _ hpre]
      simp [firstRunnable, ht]
    rw [hL, hR]
  | none =>
    have hall : ∀ x ∈ l.drop j, runnable (st x) = false :=
      firstRunnable_none hfr
    have hwrap : scanFrom st l l.length j = scanFrom st l j 0 := by
      have h1 : l.length = j + (l.length - j) := by omega
      rw [show scanFrom st l l.length j = scanFrom st l (j + (l.length - j)) j
            from by rw [← h1]]
      exact scanFrom_wraps (l.length - j) j j hj rfl hall
    have htake : tr ∈ l.take j := by
      have hm : tr ∈ l.take j ++ l.drop j := by
        rw [List.take_append_drop]; exact htr
      rcases List.mem_append.mp hm with h | h
      · exact h
      · exact absurd (hall tr h) (by simp [hrr])
    obtain ⟨t0, hfr0⟩ := firstRunnable_isSome htake hrr
    obtain ⟨pre, rest, hsplit, hpre, ht0⟩ := firstRunnable_split hfr0
    have hlenpre : pre.length < j := by
      have hlen := congrArg List.length hsplit
      rw [List.length_take] at hlen
      simp only [List.length_append, List.length_cons] at hlen
      omega
    have hdrop0 : l.drop 0 = pre ++ t0 :: (rest ++ l.drop j) := by
      rw [List.drop_zero]
      conv_lhs => rw [← List.take_append_drop j l, hsplit]
      rw [List.append_assoc, List.cons_append]
    have hL : scanFrom st l j 0 = some t0 :=
      scanFrom_hits pre j 0 t0 (rest ++ l.drop j) hdrop0 hpre ht0 hlenpre
    have hR : firstRunnable st (l.drop j ++ l.take j) = some t0 := by
      rw [firstRunnable_append_notin _ hall, hfr0]
    rw [hwrap, hL, hR]

/-- C5: for every scheduler list holding at least one READY or RUNNING
task, getNextTask terminates and selects exactly the first READY or
RUNNING task of the traversal that starts just past the current position
and wraps around skipping the sentinel; with a NULL current task the
traversal is the whole list from the front.  The list itself is left
untouched, getNextTask being a pure scan. -/
theorem getNextTask_selects_first_runnable
    (st : Nat → TState) (l : List Nat) (c i tr : Nat)
    (hfind : l.findIdx (fun x => x == c) = i) (hi : i < l.length)
    (htr : tr ∈ l) (hrr : runnable (st tr) = true) :
    (∃ u, getNextTask st l (some c) = some u)
    ∧ getNextTask st l (some c)
        = firstRunnable st
            (l.drop (listGetNextIdx l.length i) ++ l.take (listGetNextIdx l.length i))
    ∧ getNextTask st l none = firstRunnable st l := by
  have hj0 : listGetNextIdx l.length i < l.length := by
    unfold listGetNextIdx
    split <;> omega
  have hmain : getNextTask st l (some c)
      = firstRunnable st
          (l.drop (listGetNextIdx l.length i) ++ l.take (listGetNextIdx l.length i)) := by
    show scanFrom st l l.length (listGetNextIdx l.length (l.findIdx (fun x => x == c))) = _
    rw [hfind]
    exact scanFrom_eq_firstRunnable _ hj0 tr htr hrr
  have hnone : getNextTask st l none = firstRunnable st l := by
    show scanFrom st l l.length 0 = _
    rw [scanFrom_eq_firstRunnable 0 (by omega) tr htr hrr]
    simp
  refine ⟨?_, hmain, hnone⟩
  rw [hmain]
  have hmem : tr ∈ l.drop (listGetNextIdx l.length i) ++ l.take (listGetNextIdx l.length i) := by
    rw [List.mem_append, Or.comm, ← List.mem_append, List.take_append_drop]
    exact htr
  exact firstRunnable_isSome hmem hrr

theorem getNextTask_selects_first_runnable_witness :
    getNextTask st5ex [3, 4, 5] (some 3) = firstRunnable st5ex [4, 5, 3]
    ∧ getNextTask st5ex [3, 4, 5] none = firstRunnable st5ex [3, 4, 5] :=
  ⟨(getNextTask_selects_first_runnable st5ex [3, 4, 5] 3 0 5
      (by decide) (by decide) (by decide) (by decide)).2.1,
   (getNextTask_selects_first_runnable st5ex [3, 4, 5] 3 0 5
      (by decide) (by decide) (by decide) (by decide)).2.2⟩

/-- C1 counterexample: in sysBlocked the current task 0 set itself BLOCKED
before yielding, yet switchTasks marks it READY, refuting the claim that
the BLOCKED state survives the switch. -/
theorem claimC1_false : ¬ ClaimC1 := by
  intro h
  have hb := h sysBlocked 0
      ({ sysBlocked with
           curr := some 1
           tStates := setSt (setSt sysBlocked.tStates 0 .READY) 1 .RUNNING }) 0
      rfl rfl rfl
  exact absurd hb (by decide)

/-- C1 amended: switchTasks returns the previous current task, marks the
newly selected task RUNNING, and marks the previous task READY
unconditionally whenever it differs from the selected one, even when it had
set itself BLOCKED; every other task state is untouched. -/
theorem switchTasks_spec (s : Sys) (c : Nat) (s2 : Sys) (old : Nat)
    (hc : s.curr = some c) (h : switchTasks s = some (s2, old)) :
    old = c ∧ ∃ nxt, getNextTask s.tStates s.list (some c) = some nxt
      ∧ s2.curr = some nxt ∧ s2.tStates nxt = .RUNNING
      ∧ (nxt ≠ c → s2.tStates c = .READY)
      ∧ s2.list = s.list ∧ s2.pcs = s.pcs ∧ s2.mutex = s.mutex
      ∧ ∀ u, u ≠ c → u ≠ nxt → s2.tStates u = s.tStates u := by
  simp only [switchTasks, hc] at h
  cases hg : getNextTask s.tStates s.list (some c) with
  | none => simp only [hg] at h; cases h
  | some nxt =>
    simp only [hg] at h
    injection h with h1
    injection h1 with h2 h3
    subst h3
    refine ⟨rfl, nxt, rfl, ?_, ?_, ?_, ?_, ?_, ?_, ?_⟩
    · rw [← h2]
    · rw [← h2]; exact setSt_same _ _ _
    · intro hne
      rw [← h2]
      show setSt (setSt s.tStates c .READY) nxt .RUNNING c = .READY
      rw [setSt_other _ _ _ _ (fun hcn => hne hcn.symm), setSt_same]
    · rw [← h2]
    · rw [← h2]
    · rw [← h2]
    · intro u hu1 hu2
      rw [← h2]
      show setSt (setSt s.tStates c .READY) nxt .RUNNING u = s.tStates u
      rw [setSt_other _ _ _ _ hu2, setSt_other _ _ _ _ hu1]

theorem switchTasks_spec_witness :
    (switchTasks sysBlocked).map (fun p => (p.1.tStates 0, p.1.tStates 1, p.1.curr, p.2))
      = some (.READY, .RUNNING, some 1, 0) := by
  have h := switchTasks_spec sysBlocked 0
      ({ sysBlocked with
           curr := some 1
           tStates := setSt (setSt sysBlocked.tStates 0 .READY) 1 .RUNNING }) 0
      rfl rfl
  obtain ⟨-, nxt, hg, -, -, -, -, -, -, -⟩ := h
  have hnxt : nxt = 1 := by
    have : getNextTask sysBlocked.tStates sysBlocked.list (some 0) = some 1 := by decide
    rw [this] at hg
    injection hg with hh
    exact hh.symm
  decide

/-- C2 counterexample: after lock by task 0, unlock by task 0, then a
successful tryLock by task 1, the mutex is held but lockedBy still names
task 0 while the most recent acquirer is task 1, refuting the stated
ownership invariant. -/
theorem claimC2_false : ¬ ClaimC2 := by
  intro h
  have hb := (h [.mLock 0, .mUnlock 0, .mTryLock 1] ⟨false, none, []⟩
      stAllBlocked (by decide)).2
  exact absurd hb (by decide)

/-- C2 amended: along every call sequence, the lockedBy field equals the
task that most recently acquired the mutex through the blocking lock path
(or its initial content when no lock call succeeded): a successful tryLock
sets the held flag without updating lockedBy, and unlock never clears it,
so a mutex held after a tryLock can show an empty or stale owner. -/
theorem lockedBy_eq_lockPathOwner (ops : List MOp) :
    ∀ (m : MyMutex) (st : Nat → TState),
      (runMutexOps ops (m, st)).1.lockedBy = lockPathOwner ops (m, st) m.lockedBy := by
  induction ops with
  | nil => intro m st; rfl
  | cons op ops ih =>
    intro m st
    cases op with
    | mInit =>
      have e3 : runMutexOps (.mInit :: ops) (m, st)
          = runMutexOps ops (initMyMutex m, st) := rfl
      have e2 : lockPathOwner (.mInit :: ops) (m, st) m.lockedBy
          = lockPathOwner ops (initMyMutex m, st) m.lockedBy := rfl
      have e4 : (initMyMutex m).lockedBy = m.lockedBy := rfl
      rw [e3, e2, ih, e4]
    | mLock t =>
      cases hv : m.value with
      | true =>
        have e1 : mutexOp (.mLock t) (m, st)
            = ({ m with waitChain := m.waitChain ++ [t] }, setSt st t .BLOCKED) := by
          simp [mutexOp, hv]
        have e2 : lockPathOwner (.mLock t :: ops) (m, st) m.lockedBy
            = lockPathOwner ops (mutexOp (.mLock t) (m, st)) m.lockedBy := by
          simp [lockPathOwner, hv]
        have e3 : runMutexOps (.mLock t :: ops) (m, st)
            = runMutexOps ops (mutexOp (.mLock t) (m, st)) := rfl
        rw [e3, e2, e1, ih]
      | false =>
        have e1 : mutexOp (.mLock t) (m, st)
            = ({ m with value := true, lockedBy := some t }, st) := by
          simp [mutexOp, hv]
        have e2 : lockPathOwner (.mLock t :: ops) (m, st) m.lockedBy
            = lockPathOwner ops (mutexOp (.mLock t) (m, st)) (some t) := by
          simp [lockPathOwner, hv]
        have e3 : runMutexOps (.mLock t :: ops) (m, st)
            = runMutexOps ops (mutexOp (.mLock t) (m, st)) := rfl
        rw [e3, e2, e1, ih]
    | mTryLock t =>
      have e3 : runMutexOps (.mTryLock t :: ops) (m, st)
          = runMutexOps ops ((tryLockMutex m).1, st) := rfl
      have e2 : lockPathOwner (.mTryLock t :: ops) (m, st) m.lockedBy
          = lockPathOwner ops ((tryLockMutex m).1, st) m.lockedBy := rfl
      have e4 : (tryLockMutex m).1.lockedBy = m.lockedBy := by
        unfold tryLockMutex
        cases hv : m.value <;> simp [hv]
      rw [e3, e2, ih, e4]
    | mUnlock t =>
      have e3 : runMutexOps (.mUnlock t :: ops) (m, st)
          = runMutexOps ops (unlockMutex t m st) := rfl
      have e2 : lockPathOwner (.mUnlock t :: ops) (m, st) m.lockedBy
          = lockPathOwner ops (unlockMutex t m st) m.lockedBy := rfl
      have e5 : unlockMutex t m st
          = ((unlockMutex t m st).1, (unlockMutex t m st).2) := rfl
      have e4 : (unlockMutex t m st).1.lockedBy = m.lockedBy := by
        unfold unlockMutex
        by_cases hcnd : m.value = true ∧ m.lockedBy = some t
        · rw [if_pos hcnd]
        · rw [if_neg hcnd]
      rw [e3, e2, e5, ih, e4]

theorem runnable_ne_zombie {ts : TState} (h : runnable ts = true) :
    ts ≠ .ZOMBIE := by
  cases ts <;> simp_all [runnable]

theorem scheduleSys_pcs (s : Sys) : (scheduleSys s).pcs = s.pcs := by
  unfold scheduleSys switchTasks
  cases hc : s.curr with
  | none => rfl
  | some c =>
    cases hg : getNextTask s.tStates s.list (some c) with
    | none => simp [hg]
    | some nxt => simp [hg]

theorem scheduleSys_list (s : Sys) : (scheduleSys s).list = s.list := by
  unfold scheduleSys switchTasks
  cases hc : s.curr with
  | none => rfl
  | some c =>
    cases hg : getNextTask s.tStates s.list (some c) with
    | none => simp [hg]
    | some nxt => simp [hg]

theorem scheduleSys_mutex (s : Sys) : (scheduleSys s).mutex = s.mutex := by
  unfold scheduleSys switchTasks
  cases hc : s.curr with
  | none => rfl
  | some c =>
    cases hg : getNextTask s.tStates s.list (some c) with
    | none => simp [hg]
    | some nxt => simp [hg]

theorem scheduleSys_inv {s : Sys} (h : SysInv s) : SysInv (scheduleSys s) := by
  obtain ⟨h1, h2, h3⟩ := h
  unfold scheduleSys switchTasks
  cases hc : s.curr with
  | none => exact ⟨h1, h2, h3⟩
  | some c =>
    cases hg : getNextTask s.tStates s.list (some c) with
    | none => simp only [hg]; exact ⟨h1, h2, h3⟩
    | some nxt =>
      simp only [hg]
      have hrun : runnable (s.tStates nxt) = true := getNextTask_runnable hg
      have hnz : s.tStates nxt ≠ .ZOMBIE := runnable_ne_zombie hrun
      have hcz : s.tStates c ≠ .ZOMBIE := h2 c hc
      refine ⟨?_, ?_, ?_⟩
      · intro u
        show setSt (setSt s.tStates c .READY) nxt .RUNNING u = .ZOMBIE ↔ s.pcs u = .retired
        by_cases hun : u = nxt
        · subst hun
          rw [setSt_same]
          constructor
          · intro hx; cases hx
          · intro hx; exact absurd ((h1 u).mpr hx) hnz
        · rw [setSt_other _ _ _ _ hun]
          by_cases huc : u = c
          · subst huc
            rw [setSt_same]
            constructor
            · intro hx; cases hx
            · intro hx; exact absurd ((h1 u).mpr hx) hcz
          · rw [setSt_other _ _ _ _ huc]
            exact h1 u
      · intro cc hcc
        have hcc2 : nxt = cc := by injection hcc
        subst hcc2
        show setSt (setSt s.tStates c .READY) nxt .RUNNING nxt ≠ .ZOMBIE
        rw [setSt_same]
        intro hx; cases hx
      · exact h3

theorem yieldWith_pcs (s : Sys) (c : Nat) (pcNew : PC) :
    (yieldWith s c pcNew).pcs = setPC s.pcs c pcNew := by
  unfold yieldWith
  rw [scheduleSys_pcs]

/-- Invariant preservation across a yield of the current task c, phrased on
the state just before the continuation is recorded. -/
theorem inv_yield {s : Sys} {c : Nat} {pcNew : PC}
    (ha : ∀ u, u ≠ c → (s.tStates u = .ZOMBIE ↔ s.pcs u = .retired))
    (hb : s.tStates c ≠ .ZOMBIE)
    (hcur : s.curr = some c)
    (hnr : pcNew ≠ .retired)
    (hch : ∀ u ∈ s.mutex.waitChain, u ≠ c → (s.pcs u = .lockWait ∨ s.pcs u = .lockDone))
    (hchc : c ∈ s.mutex.waitChain → (pcNew = .lockWait ∨ pcNew = .lockDone)) :
    SysInv (yieldWith s c pcNew) := by
  unfold yieldWith
  apply scheduleSys_inv
  refine ⟨?_, ?_, ?_⟩
  · intro u
    show s.tStates u = .ZOMBIE ↔ setPC s.pcs c pcNew u = .retired
    by_cases huc : u = c
    · subst huc
      rw [setPC_same]
      exact iff_of_false hb hnr
    · rw [setPC_other _ _ _ _ huc]
      exact ha u huc
  · intro cc hcc
    show s.tStates cc ≠ .ZOMBIE
    rw [show ({ s with pcs := setPC s.pcs c pcNew } : Sys).curr = s.curr from rfl, hcur] at hcc
    injection hcc with hcc
    subst hcc
    exact hb
  · intro u hu
    show setPC s.pcs c pcNew u = .lockWait ∨ setPC s.pcs c pcNew u = .lockDone
    by_cases huc : u = c
    · subst huc
      rw [setPC_same]
      exact hchc hu
    · rw [setPC_other _ _ _ _ huc]
      exact hch u hu huc

theorem stepTask_inv {s : Sys} (h : SysInv s) : SysInv (stepTask s) := by
  obtain ⟨h1, h2, h3⟩ := h
  cases hc : s.curr with
  | none =>
    simp only [stepTask, hc]
    exact ⟨h1, h2, h3⟩
  | some c =>
    have hcz : s.tStates c ≠ .ZOMBIE := h2 c hc
    cases hpc : s.pcs c with
    | work n =>
      cases n with
      | succ k =>
        simp only [stepTask, hc, hpc]
        exact inv_yield (fun u _ => h1 u) hcz hc (by intro hx; cases hx)
          (fun u hu _ => h3 u hu)
          (fun hcm => by rcases h3 c hcm with hx | hx <;> rw [hpc] at hx <;> cases hx)
      | zero =>
        simp only [stepTask, hc, hpc]
        cases hg : getNextTask (setSt s.tStates c .ZOMBIE) (s.list.erase c) none with
        | none => exact ⟨h1, h2, h3⟩
        | some nxt =>
          have hrun := getNextTask_runnable hg
          refine ⟨?_, ?_, ?_⟩
          · intro u
            show setSt s.tStates c .ZOMBIE u = .ZOMBIE ↔ setPC s.pcs c .retired u = .retired
            by_cases huc : u = c
            · subst huc
              rw [setSt_same, setPC_same]
              exact iff_of_true rfl rfl
            · rw [setSt_other _ _ _ _ huc, setPC_other _ _ _ _ huc]
              exact h1 u
          · intro cc hcc
            have hcc2 : nxt = cc := by injection hcc
            subst hcc2
            show setSt s.tStates c .ZOMBIE nxt ≠ .ZOMBIE
            exact runnable_ne_zombie hrun
          · intro u hu
            show setPC s.pcs c .retired u = .lockWait ∨ setPC s.pcs c .retired u = .lockDone
            have huc : u ≠ c := by
              intro he
              subst he
              rcases h3 u hu with hx | hx <;> rw [hpc] at hx <;> cases hx
            rw [setPC_other _ _ _ _ huc]
            exact h3 u hu
    | joinLoop tgt =>
      simp only [stepTask, hc, hpc]
      by_cases hz : s.tStates tgt = .ZOMBIE
      · rw [if_pos hz]
        refine ⟨?_, ?_, ?_⟩
        · intro u
          show s.tStates u = .ZOMBIE ↔ setPC s.pcs c .joinDone u = .retired
          by_cases huc : u = c
          · subst huc
            rw [setPC_same]
            exact iff_of_false hcz (by intro hx; cases hx)
          · rw [setPC_other _ _ _ _ huc]
            exact h1 u
        · intro cc hcc
          have hx : some c = some cc := hcc
          have hcc2 : c = cc := by injection hx
          subst hcc2
          exact hcz
        · intro u hu
          have huc : u ≠ c := by
            intro he
            subst he
            rcases h3 u hu with hx | hx <;> rw [hpc] at hx <;> cases hx
          show setPC s.pcs c .joinDone u = .lockWait ∨ setPC s.pcs c .joinDone u = .lockDone
          rw [setPC_other _ _ _ _ huc]
          exact h3 u hu
      · rw [if_neg hz]
        exact inv_yield (fun u _ => h1 u) hcz hc (by intro hx; cases hx)
          (fun u hu _ => h3 u hu)
          (fun hcm => by rcases h3 c hcm with hx | hx <;> rw [hpc] at hx <;> cases hx)
    | joinDone =>
      simp only [stepTask, hc, hpc]
      exact inv_yield (fun u _ => h1 u) hcz hc (by intro hx; cases hx)
        (fun u hu _ => h3 u hu)
        (fun hcm => by rcases h3 c hcm with hx | hx <;> rw [hpc] at hx <;> cases hx)
    | idle =>
      simp only [stepTask, hc, hpc]
      exact inv_yield (fun u _ => h1 u) hcz hc (by intro hx; cases hx)
        (fun u hu _ => h3 u hu)
        (fun hcm => by rcases h3 c hcm with hx | hx <;> rw [hpc] at hx <;> cases hx)
    | lockDone =>
      simp only [stepTask, hc, hpc]
      exact inv_yield (fun u _ => h1 u) hcz hc (by intro hx; cases hx)
        (fun u hu _ => h3 u hu)
        (fun _ => Or.inr rfl)
    | retired =>
      simp only [stepTask, hc, hpc]
      exact ⟨h1, h2, h3⟩
    | lockEntry =>
      simp only [stepTask, hc, hpc]
      by_cases hv : s.mutex.value = true
      · rw [if_pos hv]
        apply inv_yield
        · intro u huc
          show setSt s.tStates c .BLOCKED u = .ZOMBIE ↔ s.pcs u = .retired
          rw [setSt_other _ _ _ _ huc]
          exact h1 u
        · show setSt s.tStates c .BLOCKED c ≠ .ZOMBIE
          rw [setSt_same]
          intro hx; cases hx
        · rfl
        · intro hx; cases hx
        · intro u hu hun
          rcases List.mem_append.mp hu with hx | hx
          · exact h3 u hx
          · rcases List.mem_singleton.mp hx with rfl
            exact absurd rfl hun
        · intro _; exact Or.inl rfl
      · rw [if_neg hv]
        refine ⟨?_, ?_, ?_⟩
        · intro u
          show s.tStates u = .ZOMBIE ↔ setPC s.pcs c .lockDone u = .retired
          by_cases huc : u = c
          · subst huc
            rw [setPC_same]
            exact iff_of_false hcz (by intro hx; cases hx)
          · rw [setPC_other _ _ _ _ huc]
            exact h1 u
        · intro cc hcc
          have hx : some c = some cc := hcc
          have hcc2 : c = cc := by injection hx
          subst hcc2
          exact hcz
        · intro u hu
          have hu2 : u ∈ s.mutex.waitChain := hu
          show setPC s.pcs c .lockDone u = .lockWait ∨ setPC s.pcs c .lockDone u = .lockDone
          by_cases huc : u = c
          · subst huc
            rw [setPC_same]
            exact Or.inr rfl
          · rw [setPC_other _ _ _ _ huc]
            exact h3 u hu2
    | lockWait =>
      simp only [stepTask, hc, hpc]
      by_cases hv : s.mutex.value = true
      · rw [if_pos hv]
        apply inv_yield
        · intro u huc
          show setSt s.tStates c .BLOCKED u = .ZOMBIE ↔ s.pcs u = .retired
          rw [setSt_other _ _ _ _ huc]
          exact h1 u
        · show setSt s.tStates c .BLOCKED c ≠ .ZOMBIE
          rw [setSt_same]
          intro hx; cases hx
        · rfl
        · intro hx; cases hx
        · intro u hu hun
          exact h3 u hu
        · intro _; exact Or.inl rfl
      · rw [if_neg hv]
        refine ⟨?_, ?_, ?_⟩
        · intro u
          show s.tStates u = .ZOMBIE ↔ setPC s.pcs c .lockDone u = .retired
          by_cases huc : u = c
          · subst huc
            rw [setPC_same]
            exact iff_of_false hcz (by intro hx; cases hx)
          · rw [setPC_other _ _ _ _ huc]
            exact h1 u
        · intro cc hcc
          have hx : some c = some cc := hcc
          have hcc2 : c = cc := by injection hx
          subst hcc2
          exact hcz
        · intro u hu
          have hu2 : u ∈ s.mutex.waitChain := hu
          show setPC s.pcs c .lockDone u = .lockWait ∨ setPC s.pcs c .lockDone u = .lockDone
          by_cases huc : u = c
          · subst huc
            rw [setPC_same]
            exact Or.inr rfl
          · rw [setPC_other _ _ _ _ huc]
            exact h3 u hu2
    | unlockOnce =>
      simp only [stepTask, hc, hpc]
      have hcnc : c ∉ s.mutex.waitChain := by
        intro hcm
        rcases h3 c hcm with hx | hx <;> rw [hpc] at hx <;> cases hx
      by_cases hcnd : s.mutex.value = true ∧ s.mutex.lockedBy = some c
      · have he1 : (unlockMutex c s.mutex s.tStates).1 = { s.mutex with value := false } := by
          unfold unlockMutex
          rw [if_pos hcnd]
        have he2 : (unlockMutex c s.mutex s.tStates).2 = wakeAll s.mutex.waitChain s.tStates := by
          unfold unlockMutex
          rw [if_pos hcnd]
        refine ⟨?_, ?_, ?_⟩
        · intro u
          show (unlockMutex c s.mutex s.tStates).2 u = .ZOMBIE ↔ setPC s.pcs c .idle u = .retired
          rw [he2]
          by_cases huch : u ∈ s.mutex.waitChain
          · rw [wakeAll_mem _ _ _ huch]
            have hune : u ≠ c := fun he => hcnc (he ▸ huch)
            rw [setPC_other _ _ _ _ hune]
            refine iff_of_false (by intro hx; cases hx) ?_
            rcases h3 u huch with hx | hx <;> rw [hx] <;> intro hy <;> cases hy
          · rw [wakeAll_notMem _ _ _ huch]
            by_cases huc : u = c
            · subst huc
              rw [setPC_same]
              exact iff_of_false hcz (by intro hx; cases hx)
            · rw [setPC_other _ _ _ _ huc]
              exact h1 u
        · intro cc hcc
          have hx2 : some c = some cc := hcc
          have hcc2 : c = cc := by injection hx2
          subst hcc2
          show (unlockMutex c s.mutex s.tStates).2 c ≠ .ZOMBIE
          rw [he2, wakeAll_notMem _ _ _ hcnc]
          exact hcz
        · intro u hu
          have hu2 : u ∈ s.mutex.waitChain := by
            have : u ∈ (unlockMutex c s.mutex s.tStates).1.waitChain := hu
            rw [he1] at this
            exact this
          have hune : u ≠ c := fun he => hcnc (he ▸ hu2)
          show setPC s.pcs c .idle u = .lockWait ∨ setPC s.pcs c .idle u = .lockDone
          rw [setPC_other _ _ _ _ hune]
          exact h3 u hu2
      · have he : unlockMutex c s.mutex s.tStates = (s.mutex, s.tStates) := by
          unfold unlockMutex
          rw [if_neg hcnd]
        refine ⟨?_, ?_, ?_⟩
        · intro u
          show (unlockMutex c s.mutex s.tStates).2 u = .ZOMBIE ↔ setPC s.pcs c .idle u = .retired
          rw [he]
          by_cases huc : u = c
          · subst huc
            rw [setPC_same]
            exact iff_of_false hcz (by intro hx; cases hx)
          · rw [setPC_other _ _ _ _ huc]
            exact h1 u
        · intro cc hcc
          have hx2 : some c = some cc := hcc
          have hcc2 : c = cc := by injection hx2
          subst hcc2
          show (unlockMutex c s.mutex s.tStates).2 c ≠ .ZOMBIE
          rw [he]
          exact hcz
        · intro u hu
          have hu2 : u ∈ s.mutex.waitChain := by
            have hx : u ∈ (unlockMutex c s.mutex s.tStates).1.waitChain := hu
            rw [he] at hx
            exact hx
          have hune : u ≠ c := fun hx => hcnc (hx ▸ hu2)
          show setPC s.pcs c .idle u = .lockWait ∨ setPC s.pcs c .idle u = .lockDone
          rw [setPC_other _ _ _ _ hune]
          exact h3 u hu2

theorem runSys_inv {s : Sys} (h : SysInv s) : ∀ n, SysInv (runSys n s) := by
  intro n
  induction n with
  | zero => exact h
  | succ k ih => exact stepTask_inv ih

theorem yieldWith_mutex (s : Sys) (c : Nat) (p : PC) :
    (yieldWith s c p).mutex = s.mutex := by
  unfold yieldWith
  rw [scheduleSys_mutex]

theorem stepTask_lockStuck {s : Sys} {t : Nat} (h : LockStuckInv t s) :
    LockStuckInv t (stepTask s) := by
  obtain ⟨hv, ho, hpct⟩ := h
  cases hc : s.curr with
  | none =>
    simp only [stepTask, hc]
    exact ⟨hv, ho, hpct⟩
  | some c =>
    by_cases hct : c = t
    · subst hct
      rcases hpct with hx | hx
      · simp only [stepTask, hc, hx, hv, if_true]
        refine ⟨?_, ?_, ?_⟩
        · rw [yieldWith_mutex]
        · rw [yieldWith_mutex]
          exact ho
        · rw [yieldWith_pcs, setPC_same]
          exact Or.inr rfl
      · simp only [stepTask, hc, hx, hv, if_true]
        refine ⟨?_, ?_, ?_⟩
        · rw [yieldWith_mutex]
          exact hv
        · rw [yieldWith_mutex]
          exact ho
        · rw [yieldWith_pcs, setPC_same]
          exact Or.inr rfl
    · have hct2 : t ≠ c := fun he => hct he.symm
      cases hpcc : s.pcs c with
      | work n =>
        cases n with
        | succ k =>
          simp only [stepTask, hc, hpcc]
          refine ⟨?_, ?_, ?_⟩
          · rw [yieldWith_mutex]; exact hv
          · rw [yieldWith_mutex]; exact ho
          · rw [yieldWith_pcs, setPC_other _ _ _ _ hct2]; exact hpct
        | zero =>
          simp only [stepTask, hc, hpcc]
          cases hg : getNextTask (setSt s.tStates c .ZOMBIE) (s.list.erase c) none with
          | none => exact ⟨hv, ho, hpct⟩
          | some nxt =>
            refine ⟨hv, ho, ?_⟩
            show setPC s.pcs c .retired t = .lockEntry ∨ setPC s.pcs c .retired t = .lockWait
            rw [setPC_other _ _ _ _ hct2]
            exact hpct
      | joinLoop tgt =>
        simp only [stepTask, hc, hpcc]
        by_cases hz : s.tStates tgt = .ZOMBIE
        · rw [if_pos hz]
          refine ⟨hv, ho, ?_⟩
          show setPC s.pcs c .joinDone t = .lockEntry ∨ setPC s.pcs c .joinDone t = .lockWait
          rw [setPC_other _ _ _ _ hct2]
          exact hpct
        · rw [if_neg hz]
          refine ⟨?_, ?_, ?_⟩
          · rw [yieldWith_mutex]; exact hv
          · rw [yieldWith_mutex]; exact ho
          · rw [yieldWith_pcs, setPC_other _ _ _ _ hct2]; exact hpct
      | joinDone =>
        simp only [stepTask, hc, hpcc]
        refine ⟨?_, ?_, ?_⟩
        · rw [yieldWith_mutex]; exact hv
        · rw [yieldWith_mutex]; exact ho
        · rw [yieldWith_pcs, setPC_other _ _ _ _ hct2]; exact hpct
      | idle =>
        simp only [stepTask, hc, hpcc]
        refine ⟨?_, ?_, ?_⟩
        · rw [yieldWith_mutex]; exact hv
        · rw [yieldWith_mutex]; exact ho
        · rw [yieldWith_pcs, setPC_other _ _ _ _ hct2]; exact hpct
      | lockDone =>
        simp only [stepTask, hc, hpcc]
        refine ⟨?_, ?_, ?_⟩
        · rw [yieldWith_mutex]; exact hv
        · rw [yieldWith_mutex]; exact ho
        · rw [yieldWith_pcs, setPC_other _ _ _ _ hct2]; exact hpct
      | retired =>
        simp only [stepTask, hc, hpcc]
        exact ⟨hv, ho, hpct⟩
      | lockEntry =>
        simp only [stepTask, hc, hpcc, hv, if_true]
        refine ⟨?_, ?_, ?_⟩
        · rw [yieldWith_mutex]
        · rw [yieldWith_mutex]; exact ho
        · rw [yieldWith_pcs, setPC_other _ _ _ _ hct2]; exact hpct
      | lockWait =>
        simp only [stepTask, hc, hpcc, hv, if_true]
        refine ⟨?_, ?_, ?_⟩
        · rw [yieldWith_mutex]; exact hv
        · rw [yieldWith_mutex]; exact ho
        · rw [yieldWith_pcs, setPC_other _ _ _ _ hct2]; exact hpct
      | unlockOnce =>
        simp only [stepTask, hc, hpcc]
        have hcnd : ¬ (s.mutex.value = true ∧ s.mutex.lockedBy = some c) := by
          intro hx
          rw [ho] at hx
          have : t = c := by injection hx.2
          exact hct2 this
        have he : unlockMutex c s.mutex s.tStates = (s.mutex, s.tStates) := by
          unfold unlockMutex
          rw [if_neg hcnd]
        have he1 : (unlockMutex c s.mutex s.tStates).1 = s.mutex := by rw [he]
        refine ⟨?_, ?_, ?_⟩
        · show (unlockMutex c s.mutex s.tStates).1.value = true
          rw [he1]
          exact hv
        · show (unlockMutex c s.mutex s.tStates).1.lockedBy = some t
          rw [he1]
          exact ho
        · show setPC s.pcs c .idle t = .lockEntry ∨ setPC s.pcs c .idle t = .lockWait
          rw [setPC_other _ _ _ _ hct2]
          exact hpct

theorem runSys_lockStuck {s : Sys} {t : Nat} (h : LockStuckInv t s) :
    ∀ n, LockStuckInv t (runSys n s) := by
  intro n
  induction n with
  | zero => exact h
  | succ k ih => exact stepTask_lockStuck ih

/-- C3 counterexample: task 0 calls lockMutex on the mutex it already
holds; two steps later it is RUNNING again, because switchTasks overwrote
its BLOCKED state with READY and round robin selected it, refuting the
claim that it never re-enters RUNNING. -/
theorem claimC3_false : ¬ ClaimC3 := by
  intro h
  exact h sysSelf 0 rfl rfl rfl rfl 2 (by omega) (by decide)

/-- C3 amended: a task that calls lockMutex on a mutex it already holds
never completes the call: in every later step it remains at the entry or
inside the wait loop of lockMutex, never reaching the point after the lock
and never retiring, because the mutex can never be released; contrary to
the claim as stated, it does keep re-entering RUNNING, since switchTasks
overwrites its BLOCKED state. -/
theorem lockMutex_self_deadlock (s : Sys) (t : Nat)
    (hv : s.mutex.value = true) (ho : s.mutex.lockedBy = some t)
    (hpc : s.pcs t = .lockEntry ∨ s.pcs t = .lockWait) :
    ∀ n, ((runSys n s).pcs t = .lockEntry ∨ (runSys n s).pcs t = .lockWait)
      ∧ (runSys n s).pcs t ≠ .lockDone ∧ (runSys n s).pcs t ≠ .retired := by
  intro n
  obtain ⟨-, -, hp⟩ := runSys_lockStuck ⟨hv, ho, hpc⟩ n
  refine ⟨hp, ?_, ?_⟩ <;> rcases hp with hx | hx <;> rw [hx] <;> intro hy <;> cases hy

theorem lockMutex_self_deadlock_witness :
    ((runSys 3 sysSelf).pcs 0 = .lockEntry ∨ (runSys 3 sysSelf).pcs 0 = .lockWait)
    ∧ (runSys 3 sysSelf).pcs 0 ≠ .lockDone ∧ (runSys 3 sysSelf).pcs 0 ≠ .retired :=
  lockMutex_self_deadlock sysSelf 0 rfl rfl (Or.inl rfl) 3

theorem sysJoin_inv : SysInv sysJoin := by
  refine ⟨?_, ?_, ?_⟩
  · intro u
    show sysJoin.tStates u = .ZOMBIE ↔ sysJoin.pcs u = .retired
    by_cases h0 : u = 0
    · subst h0
      simp [sysJoin]
    · by_cases h1 : u = 1
      · subst h1
        simp [sysJoin]
      · simp [sysJoin, h0, h1]
  · intro c hcc
    have hx : some 0 = some c := hcc
    have h0 : 0 = c := by injection hx
    subst h0
    simp [sysJoin]
  · intro u hu
    simp [sysJoin] at hu

/-- C6: along every run from a well-formed start, the taskJoin loop of a
polling task exits exactly when its target has reached ZOMBIE, which by the
preserved invariant happens exactly when the target entry routine returned
and cleanUpFunc retired it; while the target is still executing, the poll
is a yield that leaves the caller inside the loop, so Terminal is never
observed prematurely. -/
theorem taskJoin_returns_iff (s0 s : Sys) (n c tgt : Nat)
    (h0 : SysInv s0) (hrun : runSys n s0 = s)
    (hc : s.curr = some c) (hpc : s.pcs c = .joinLoop tgt) :
    ((stepTask s).pcs c = .joinDone ↔ s.pcs tgt = .retired)
    ∧ (s.tStates tgt = .ZOMBIE ↔ s.pcs tgt = .retired)
    ∧ (s.pcs tgt ≠ .retired → (stepTask s).pcs c = .joinLoop tgt) := by
  have hInv : SysInv s := hrun ▸ runSys_inv h0 n
  obtain ⟨h1, h2, h3⟩ := hInv
  by_cases hz : s.tStates tgt = .ZOMBIE
  · have hr : s.pcs tgt = .retired := (h1 tgt).mp hz
    have hstep : (stepTask s).pcs c = .joinDone := by
      simp only [stepTask, hc, hpc, hz, if_pos]
      exact setPC_same _ _ _
    exact ⟨iff_of_true hstep hr, h1 tgt, fun hnr => absurd hr hnr⟩
  · have hnr : s.pcs tgt ≠ .retired := fun hr => hz ((h1 tgt).mpr hr)
    have hstep : (stepTask s).pcs c = .joinLoop tgt := by
      simp only [stepTask, hc, hpc]
      rw [if_neg hz, yieldWith_pcs, setPC_same]
    refine ⟨iff_of_false ?_ hnr, h1 tgt, fun _ => hstep⟩
    rw [hstep]
    intro hy
    cases hy

theorem taskJoin_returns_iff_witness :
    ((stepTask sysJoin).pcs 0 = .joinDone ↔ sysJoin.pcs 1 = .retired)
    ∧ (sysJoin.tStates 1 = .ZOMBIE ↔ sysJoin.pcs 1 = .retired)
    ∧ (sysJoin.pcs 1 ≠ .retired → (stepTask sysJoin).pcs 0 = .joinLoop 1) :=
  taskJoin_returns_iff sysJoin sysJoin 0 0 1 sysJoin_inv rfl rfl rfl

theorem scheduleSys_tStates_cases (x : Sys) (u : Nat) :
    (scheduleSys x).tStates u = x.tStates u
    ∨ (scheduleSys x).tStates u = .READY
    ∨ (scheduleSys x).tStates u = .RUNNING := by
  unfold scheduleSys switchTasks
  cases hc : x.curr with
  | none => exact Or.inl rfl
  | some c =>
    cases hg : getNextTask x.tStates x.list (some c) with
    | none => simp only [hg]; exact Or.inl (by trivial)
    | some nxt =>
      simp only [hg]
      show setSt (setSt x.tStates c .READY) nxt .RUNNING u = x.tStates u ∨ _ ∨ _
      by_cases hun : u = nxt
      · subst hun
        rw [setSt_same]
        exact Or.inr (Or.inr rfl)
      · rw [setSt_other _ _ _ _ hun]
        by_cases huc : u = c
        · subst huc
          rw [setSt_same]
          exact Or.inr (Or.inl rfl)
        · rw [setSt_other _ _ _ _ huc]
          exact Or.inl rfl

/-- C9: initTask is a silent no-op on a NULL handle or a handle whose state
is not ALLOC: the whole system state is returned unchanged and no
scheduling point is reached; only on an ALLOC handle does it mark the task
READY, append it at the tail of the scheduler list, and trigger the
scheduling point (after which the new task is READY, or RUNNING when
selected at once).  The stack and context preparation lie outside the
embedding. -/
theorem initTask_alloc_guard (s : Sys) (t : Nat) (pc0 : PC)
    (hne : s.tStates t ≠ .ALLOC) (s2 : Sys) (hal : s2.tStates t = .ALLOC) :
    initTask (some t) pc0 s = (s, false)
    ∧ initTask none pc0 s = (s, false)
    ∧ (initTask (some t) pc0 s2).2 = true
    ∧ (initTask (some t) pc0 s2).1.list = s2.list ++ [t]
    ∧ ((initTask (some t) pc0 s2).1.tStates t = .READY
        ∨ (initTask (some t) pc0 s2).1.tStates t = .RUNNING) := by
  refine ⟨?_, rfl, ?_, ?_, ?_⟩
  · simp only [initTask]
    rw [if_neg hne]
  · simp only [initTask]
    rw [if_pos hal]
  · simp only [initTask]
    rw [if_pos hal]
    exact scheduleSys_list _
  · simp only [initTask]
    rw [if_pos hal]
    rcases scheduleSys_tStates_cases
        { s2 with
            tStates := setSt s2.tStates t .READY
            pcs := setPC s2.pcs t pc0
            list := s2.list ++ [t] } t with hx | hx | hx
    · left
      rw [hx]
      exact setSt_same _ _ _
    · exact Or.inl hx
    · exact Or.inr hx

theorem initTask_alloc_guard_witness :
    initTask (some 2) .idle sysBlocked = (sysBlocked, false)
    ∧ initTask none .idle sysBlocked = (sysBlocked, false)
    ∧ (initTask (some 2) .idle sysAlloc).2 = true
    ∧ (initTask (some 2) .idle sysAlloc).1.list = sysAlloc.list ++ [2]
    ∧ ((initTask (some 2) .idle sysAlloc).1.tStates 2 = .READY
        ∨ (initTask (some 2) .idle sysAlloc).1.tStates 2 = .RUNNING) :=
  initTask_alloc_guard sysBlocked 2 .idle (by decide) sysAlloc (by decide)
